import Mathlib

/-!
# A shallow embedding of `delaymap.go` (package `delaymap`)

`DelayMap[K, V]` is a mutex-protected map (`data`), a registry of per-key
condition variables (`conds`), and a fixed `waitTimeout`.  The public
operations are `Set`, `Get`, `Delete`, `Close`.

The embedding is a small-step machine.  A machine state `DMState` carries:
* `data`    — the Go map `dm.data`, as an association list;
* `conds`   — the Go map `dm.conds`, as an association list from key to a
              condition-variable identity (a `Nat` allocated by `nextCond`);
* `waiters` — one record per `Get` call currently on the slow path (plus its
              helper goroutine), recording which cond it registered on, when
              it started, how far its helper goroutine has progressed, and
              its result once the `select` has fired;
* `now`     — an abstract clock (`time.After(dm.waitTimeout)` fires once
              `now ≥ start + timeout`).

Each atomic action of the Go source (a critical section under `dm.mu`, or a
local action that touches no shared state) is one labelled step, executed by
`exec`.  The phases of a slow-path `Get` follow the source exactly:

* `registerStep` — lines 40–52: under the mutex, miss on `data`, then join
  the existing cond for the key or create and register a fresh one, unlock;
* `HelperPhase.pre` — the helper goroutine of lines 58–63 has not yet reached
  `cond.Wait()`; a `Broadcast` in this window does NOT wake it;
* `parkStep` — the helper goroutine acquires the mutex and enters
  `cond.Wait()` (`HelperPhase.parked`); a `Broadcast` on that cond now wakes
  it, after which it closes `done` (`HelperPhase.woke`);
* `retSigStep` — lines 66–70: the `select` takes the `done` branch, re-locks,
  re-reads `data[key]`, and returns `(val, exists)`;
* `retTOStep` — lines 71–76: the `select` takes the `timeout` branch
  (enabled once `now ≥ start + timeout`) and returns `(zero, false)` without
  reading `data`.

A returned pair `(V, bool)` is modelled as `Option V`: `some v` is
`(v, true)` and `none` is `(zero-value, false)` — in the source, `val` is
the zero value exactly when `exists` is false.
-/

namespace DelayMap

/-- Key-value association-list lookup: the embedding of a Go map read
`v, ok := m[k]`. -/
def lookupKey {K V : Type} [DecidableEq K] : List (K × V) → K → Option V
  | [], _ => none
  | (k', v) :: t, k => if k' = k then some v else lookupKey t k

/-- Go map assignment `m[k] = v`: overwrite the entry if present, else add
it. -/
def insertKey {K V : Type} [DecidableEq K] : List (K × V) → K → V → List (K × V)
  | [], k, v => [(k, v)]
  | (k', v') :: t, k, v =>
    if k' = k then (k, v) :: t else (k', v') :: insertKey t k v

/-- Go map deletion `delete(m, k)`: remove the entry for `k` (the first one;
keys are unique in a Go map). -/
def eraseKey {K V : Type} [DecidableEq K] : List (K × V) → K → List (K × V)
  | [], _ => []
  | (k', v') :: t, k => if k' = k then t else (k', v') :: eraseKey t k

/-- Progress of the helper goroutine spawned at lines 58–63 of `Get`:
`pre` = not yet at `cond.Wait()`; `parked` = blocked inside `cond.Wait()`;
`woke` = signalled, has re-acquired the mutex and closed `done`. -/
inductive HelperPhase where
  | pre
  | parked
  | woke
deriving DecidableEq, Repr

/-- One slow-path `Get` call together with its helper goroutine. -/
structure Waiter (K V : Type) where
  /-- The key the `Get` call was made on. -/
  key : K
  /-- Identity of the `sync.Cond` this call registered on (line 47–51). -/
  condId : Nat
  /-- Clock value when the call started blocking (`time.After` baseline). -/
  start : Nat
  /-- Progress of the helper goroutine. -/
  helper : HelperPhase
  /-- `none` while the `select` has not fired; `some r` once the call has
  returned, with `r : Option V` the returned pair. -/
  result : Option (Option V)
deriving DecidableEq, Repr

/-- The whole machine state: the `DelayMap` struct plus all outstanding
slow-path `Get` calls and an abstract clock. -/
structure DMState (K V : Type) where
  /-- `dm.data`. -/
  data : List (K × V)
  /-- `dm.conds`; the `Nat` is the identity of the `*sync.Cond`. -/
  conds : List (K × Nat)
  /-- Allocator of fresh cond identities (`sync.NewCond` at line 49). -/
  nextCond : Nat
  /-- `dm.waitTimeout`, in clock units. -/
  timeout : Nat
  /-- All slow-path `Get` calls, indexed by position. -/
  waiters : List (Waiter K V)
  /-- The abstract clock. -/
  now : Nat
deriving DecidableEq, Repr

/-- `New(waitTimeout)`: empty `data`, empty `conds`. -/
def newDM (K V : Type) (timeout : Nat) : DMState K V :=
  { data := [], conds := [], nextCond := 0, timeout := timeout
    waiters := [], now := 0 }

variable {K V : Type} [DecidableEq K]

/-- `Set(key, value)`, lines 27–35: insert the entry; if a cond is registered
for the key, `Broadcast` it (waking exactly the helper goroutines currently
inside `cond.Wait()` on that cond) and delete it from `conds`. -/
def doSet (s : DMState K V) (k : K) (v : V) : DMState K V :=
  match lookupKey s.conds k with
  | some c =>
    { s with
      data := insertKey s.data k v
      conds := eraseKey s.conds k
      waiters := s.waiters.map fun w =>
        if w.condId = c ∧ w.helper = .parked then { w with helper := .woke }
        else w }
  | none => { s with data := insertKey s.data k v }

/-- `Delete(key)`, lines 80–84: remove the entry; no cond is touched. -/
def doDelete (s : DMState K V) (k : K) : DMState K V :=
  { s with data := eraseKey s.data k }

/-- `Close()`, lines 87–97: `Broadcast` every cond in the registry (waking
the helper goroutines parked on any of them), then reset `data` and `conds`
to fresh empty maps. -/
def doClose (s : DMState K V) : DMState K V :=
  { s with
    data := []
    conds := []
    waiters := s.waiters.map fun w =>
      if w.helper = .parked ∧ w.condId ∈ s.conds.map Prod.snd then
        { w with helper := .woke }
      else w }

/-- The first critical section of `Get(key)`, lines 40–52: if `data` has the
key, return `(val, true)` at once (`Sum.inl`, the fast path); otherwise join
the registered cond, or create and register a fresh one, append the new
waiter (helper goroutine not yet started: phase `pre`), and unlock
(`Sum.inr`, the slow path). -/
def getEnter (s : DMState K V) (k : K) : Option V ⊕ DMState K V :=
  match lookupKey s.data k with
  | some v => Sum.inl (some v)
  | none =>
    match lookupKey s.conds k with
    | some c =>
      Sum.inr { s with
        waiters := s.waiters ++ [⟨k, c, s.now, .pre, none⟩] }
    | none =>
      Sum.inr { s with
        conds := insertKey s.conds k s.nextCond
        nextCond := s.nextCond + 1
        waiters := s.waiters ++ [⟨k, s.nextCond, s.now, .pre, none⟩] }

/-- Labels of the atomic steps. `i` indexes into `waiters`. -/
inductive Label (K V : Type) where
  /-- The clock advances one unit. -/
  | tick
  /-- A thread runs `Set k v`. -/
  | setStep (k : K) (v : V)
  /-- A thread runs `Delete k`. -/
  | deleteStep (k : K)
  /-- A thread runs `Close`. -/
  | closeStep
  /-- A thread runs the slow path of `Get k` up to the unlock at line 52. -/
  | registerStep (k : K)
  /-- Waiter `i`'s helper goroutine reaches `cond.Wait()` (line 61). -/
  | parkStep (i : Nat)
  /-- Waiter `i`'s `select` takes the `done` branch (lines 66–70). -/
  | retSigStep (i : Nat)
  /-- Waiter `i`'s `select` takes the `timeout` branch (lines 71–76). -/
  | retTOStep (i : Nat)
deriving DecidableEq, Repr

/-- Execute one labelled step, if its guard holds. -/
def exec (s : DMState K V) : Label K V → Option (DMState K V)
  | .tick => some { s with now := s.now + 1 }
  | .setStep k v => some (doSet s k v)
  | .deleteStep k => some (doDelete s k)
  | .closeStep => some (doClose s)
  | .registerStep k =>
    match getEnter s k with
    | Sum.inl _ => none
    | Sum.inr s' => some s'
  | .parkStep i =>
    match s.waiters.get? i with
    | some w =>
      if w.helper = .pre then
        some { s with waiters := s.waiters.set i { w with helper := .parked } }
      else none
    | none => none
  | .retSigStep i =>
    match s.waiters.get? i with
    | some w =>
      match w.result with
      | none =>
        if w.helper = .woke then
          some { s with waiters :=
            s.waiters.set i { w with result := some (lookupKey s.data w.key) } }
        else none
      | some _ => none
    | none => none
  | .retTOStep i =>
    match s.waiters.get? i with
    | some w =>
      match w.result with
      | none =>
        if w.start + s.timeout ≤ s.now then
          some { s with waiters :=
            s.waiters.set i { w with result := some none } }
        else none
      | some _ => none
    | none => none

/-- Execute a list of labelled steps in order; `none` if any guard fails. -/
def execTrace (s : DMState K V) : List (Label K V) → Option (DMState K V)
  | [] => some s
  | l :: ls =>
    match exec s l with
    | some s' => execTrace s' ls
    | none => none

/-! ## Association-list lemmas (the Go-map operations) -/

theorem lookupKey_insertKey_self (l : List (K × V)) (k : K) (v : V) :
    lookupKey (insertKey l k v) k = some v := by
  induction l with
  | nil => simp [insertKey, lookupKey]
  | cons p t ih =>
    obtain ⟨k', v'⟩ := p
    by_cases h : k' = k
    · simp [insertKey, h, lookupKey]
    · simp [insertKey, h, lookupKey, ih]

theorem lookupKey_eq_none_iff (l : List (K × V)) (k : K) :
    lookupKey l k = none ↔ ∀ p ∈ l, p.1 ≠ k := by
  induction l with
  | nil => simp [lookupKey]
  | cons p t ih =>
    obtain ⟨k', v'⟩ := p
    by_cases h : k' = k
    · simp [lookupKey, h]
    · simp [lookupKey, h, ih]

theorem eraseKey_of_lookup_none (l : List (K × V)) (k : K)
    (h : lookupKey l k = none) : eraseKey l k = l := by
  induction l with
  | nil => rfl
  | cons p t ih =>
    obtain ⟨k', v'⟩ := p
    rw [lookupKey_eq_none_iff] at h
    have hk : k' ≠ k := h (k', v') (by simp)
    have ht : lookupKey t k = none := by
      rw [lookupKey_eq_none_iff]
      exact fun p hp => h p (by simp [hp])
    simp [eraseKey, hk, ih ht]

theorem lookupKey_eraseKey_self (l : List (K × V)) (k : K)
    (h : (l.map Prod.fst).Nodup) : lookupKey (eraseKey l k) k = none := by
  induction l with
  | nil => rfl
  | cons p t ih =>
    obtain ⟨k', v'⟩ := p
    simp only [List.map_cons, List.nodup_cons] at h
    by_cases hk : k' = k
    · subst hk
      have he : eraseKey ((k', v') :: t) k' = t := by simp [eraseKey]
      rw [he, lookupKey_eq_none_iff]
      intro q hq hq1
      exact h.1 (hq1 ▸ List.mem_map_of_mem Prod.fst hq)
    · simp [eraseKey, hk, lookupKey, ih h.2]

theorem doSet_data (s : DMState K V) (k : K) (v : V) :
    (doSet s k v).data = insertKey s.data k v := by
  unfold doSet
  split <;> rfl

/-! ## C1: the fast path of `Get` after `Set` -/

/-- C1.  Fast path of `Get`: for every key `k` and value `v`, after
`Set(k, v)` completes (and nothing else intervenes on `k`), `Get(k)` finds
`k` in the Store and returns `(v, true)` immediately via the fast path
(`Sum.inl`), without entering the blocking slow path. -/
theorem get_fast_after_set (s : DMState K V) (k : K) (v : V) :
    getEnter (doSet s k v) k = Sum.inl (some v) := by
  have h : lookupKey (doSet s k v).data k = some v := by
    rw [doSet_data]; exact lookupKey_insertKey_self s.data k v
  unfold getEnter
  rw [h]

/-- Witness for C1 at a concrete state. -/
theorem get_fast_after_set_w :
    getEnter (doSet (newDM Nat Nat 5) 1 42) 1 = Sum.inl (some 42) :=
  get_fast_after_set (newDM Nat Nat 5) 1 42

theorem get?_eq_some_getElem? {α : Type} (l : List α) (i : Nat) (a : α)
    (h : l.get? i = some a) : l[i]? = some a := by
  rwa [List.get?_eq_getElem?] at h

/-! ## C7: a signal-woken `Get` re-derives its result from the Store -/

/-- C7.  Re-check on signal wake: whenever a blocked `Get` call is woken by
a signal (helper phase `woke`, i.e. `done` closed by a `Broadcast` from
`Set` or `Close`), its `done` branch re-reads the Store at that moment and
returns `(value, exists)` with `exists` re-derived from the Store — the
returned result is `lookupKey s.data w.key` whatever it is, so presence is
never assumed merely because the signal arrived. -/
theorem signal_wake_rechecks_store (s : DMState K V) (i : Nat) (w : Waiter K V)
    (hw : s.waiters.get? i = some w) (hph : w.helper = .woke)
    (hres : w.result = none) :
    ∃ s', exec s (.retSigStep i) = some s' ∧
      s'.waiters.get? i = some { w with result := some (lookupKey s.data w.key) } := by
  have hi : i < s.waiters.length := (List.get?_eq_some.mp hw).1
  have hw' : s.waiters[i]? = some w := get?_eq_some_getElem? _ _ _ hw
  refine ⟨{ s with waiters :=
      s.waiters.set i { w with result := some (lookupKey s.data w.key) } }, ?_, ?_⟩
  · simp [exec, hw', hres, hph]
  · simpa using List.get?_set_eq_of_lt
      { w with result := some (lookupKey s.data w.key) } hi (l := s.waiters)

/-- A concrete state: one waiter on key 1, signalled (`woke`), but the Store
is empty again (as after an intervening `Delete` or `Close`). -/
def exSigState : DMState Nat Nat :=
  { data := [], conds := [], nextCond := 1, timeout := 5,
    waiters := [⟨1, 0, 0, .woke, none⟩], now := 2 }

/-- Witness for C7: a woken waiter whose key was deleted between the signal
and the re-check returns `(zero, false)`, re-derived from the Store. -/
theorem signal_wake_rechecks_store_w :
    ∃ s', exec exSigState (.retSigStep 0) = some s' ∧
      s'.waiters.get? 0 = some ⟨1, 0, 0, .woke, some none⟩ :=
  signal_wake_rechecks_store exSigState 0 ⟨1, 0, 0, .woke, none⟩ rfl rfl rfl

/-! ## C9: `Delete` removes the entry and signals nobody -/

/-- C9.  `Delete(k)` removes `k`'s entry from the Store if present (under
the key-uniqueness of a Go map) and signals no Wait Descriptor: `conds` and
`waiters` are untouched, so a blocked reader keeps waiting; and on a key
not in the Store it is a no-op leaving the whole state unchanged. -/
theorem delete_no_signal_noop (s : DMState K V) (k : K) :
    (doDelete s k).conds = s.conds ∧
    (doDelete s k).waiters = s.waiters ∧
    ((s.data.map Prod.fst).Nodup → lookupKey (doDelete s k).data k = none) ∧
    (lookupKey s.data k = none → doDelete s k = s) := by
  refine ⟨rfl, rfl, fun h => lookupKey_eraseKey_self s.data k h, fun h => ?_⟩
  simp [doDelete, eraseKey_of_lookup_none s.data k h]

/-- A concrete state: key 1 stored with value 42, a reader parked on key 2. -/
def exDelState : DMState Nat Nat :=
  { data := [(1, 42)], conds := [(2, 0)], nextCond := 1, timeout := 5,
    waiters := [⟨2, 0, 0, .parked, none⟩], now := 0 }

/-- Witness for C9 at a concrete state (key present, then key absent). -/
theorem delete_no_signal_noop_w :
    lookupKey (doDelete exDelState 1).data 1 = none ∧
    doDelete exDelState 3 = exDelState := by
  constructor
  · exact (delete_no_signal_noop exDelState 1).2.2.1 (by decide)
  · exact (delete_no_signal_noop exDelState 3).2.2.2 (by decide)

/-! ## C10: the timeout branch never consults the Store -/

/-- C10.  The timeout branch of `Get` never consults the Store: whenever a
waiter's `select` takes the `timeout` branch (deadline reached, result not
yet set), it returns `(zero-value, false)` (`some none`) unconditionally —
here even under the explicit hypothesis that its key is present in the
Store with value `v` at that very moment. -/
theorem timeout_ignores_store (s : DMState K V) (i : Nat) (w : Waiter K V)
    (v : V) (hw : s.waiters.get? i = some w) (hres : w.result = none)
    (ht : w.start + s.timeout ≤ s.now)
    (hv : lookupKey s.data w.key = some v) :
    ∃ s', exec s (.retTOStep i) = some s' ∧
      s'.waiters.get? i = some { w with result := some none } := by
  have hi : i < s.waiters.length := (List.get?_eq_some.mp hw).1
  have hw' : s.waiters[i]? = some w := get?_eq_some_getElem? _ _ _ hw
  refine ⟨{ s with waiters :=
      s.waiters.set i { w with result := some none } }, ?_, ?_⟩
  · simp [exec, hw', hres, ht]
  · simpa using List.get?_set_eq_of_lt
      { w with result := some none } hi (l := s.waiters)

/-- A concrete state: key 1 is in the Store with value 42, yet the waiter on
key 1 has reached its deadline (`now = 7 ≥ 0 + 5`). -/
def exTOState : DMState Nat Nat :=
  { data := [(1, 42)], conds := [], nextCond := 1, timeout := 5,
    waiters := [⟨1, 0, 0, .parked, none⟩], now := 7 }

/-- Witness for C10: the key is in the Store with value 42 when the deadline
fires, yet the timed-out `Get` returns `(zero, false)`. -/
theorem timeout_ignores_store_w :
    ∃ s', exec exTOState (.retTOStep 0) = some s' ∧
      s'.waiters.get? 0 = some ⟨1, 0, 0, .parked, some none⟩ :=
  timeout_ignores_store exTOState 0 ⟨1, 0, 0, .parked, none⟩ 42
    rfl rfl (by decide) rfl

/-! ## Characterizations of the labelled steps -/

theorem insertKey_of_lookup_none (l : List (K × V)) (k : K) (v : V)
    (h : lookupKey l k = none) : insertKey l k v = l ++ [(k, v)] := by
  induction l with
  | nil => rfl
  | cons p t ih =>
    obtain ⟨k', v'⟩ := p
    rw [lookupKey_eq_none_iff] at h
    have hk : k' ≠ k := h (k', v') (by simp)
    have ht : lookupKey t k = none := by
      rw [lookupKey_eq_none_iff]
      exact fun q hq => h q (by simp [hq])
    simp [insertKey, hk, ih ht]

theorem eraseKey_sublist (l : List (K × V)) (k : K) :
    List.Sublist (eraseKey l k) l := by
  induction l with
  | nil => simp [eraseKey]
  | cons p t ih =>
    obtain ⟨k', v'⟩ := p
    by_cases h : k' = k
    · simpa [eraseKey, h] using List.sublist_cons_self (k, v') t
    · simpa [eraseKey, h] using ih.cons₂ (k', v')

theorem exec_parkStep_eq {s s' : DMState K V} {i : Nat}
    (hx : exec s (.parkStep i) = some s') :
    ∃ w, s.waiters.get? i = some w ∧ w.helper = .pre ∧
      s' = { s with waiters := s.waiters.set i { w with helper := .parked } } := by
  simp only [exec] at hx
  split at hx
  · rename_i w hw
    split at hx
    · exact ⟨w, hw, by assumption, (Option.some.inj hx).symm⟩
    · exact absurd hx (by simp)
  · exact absurd hx (by simp)

theorem exec_retSigStep_eq {s s' : DMState K V} {i : Nat}
    (hx : exec s (.retSigStep i) = some s') :
    ∃ w, s.waiters.get? i = some w ∧ w.result = none ∧ w.helper = .woke ∧
      s' = { s with waiters :=
        s.waiters.set i { w with result := some (lookupKey s.data w.key) } } := by
  simp only [exec] at hx
  split at hx
  · rename_i w hw
    split at hx
    · rename_i hres
      split at hx
      · exact ⟨w, hw, hres, by assumption, (Option.some.inj hx).symm⟩
      · exact absurd hx (by simp)
    · exact absurd hx (by simp)
  · exact absurd hx (by simp)

theorem exec_retTOStep_eq {s s' : DMState K V} {i : Nat}
    (hx : exec s (.retTOStep i) = some s') :
    ∃ w, s.waiters.get? i = some w ∧ w.result = none ∧
      w.start + s.timeout ≤ s.now ∧
      s' = { s with waiters := s.waiters.set i { w with result := some none } } := by
  simp only [exec] at hx
  split at hx
  · rename_i w hw
    split at hx
    · rename_i hres
      split at hx
      · exact ⟨w, hw, hres, by assumption, (Option.some.inj hx).symm⟩
      · exact absurd hx (by simp)
    · exact absurd hx (by simp)
  · exact absurd hx (by simp)

theorem getEnter_hit {s : DMState K V} {k : K} {v : V}
    (hd : lookupKey s.data k = some v) : getEnter s k = Sum.inl (some v) := by
  unfold getEnter
  rw [hd]

theorem getEnter_join {s : DMState K V} {k : K} {c : Nat}
    (hd : lookupKey s.data k = none) (hc : lookupKey s.conds k = some c) :
    getEnter s k =
      Sum.inr { s with waiters := s.waiters ++ [⟨k, c, s.now, .pre, none⟩] } := by
  unfold getEnter
  rw [hd, hc]

theorem getEnter_fresh {s : DMState K V} {k : K}
    (hd : lookupKey s.data k = none) (hc : lookupKey s.conds k = none) :
    getEnter s k =
      Sum.inr { s with
        conds := insertKey s.conds k s.nextCond
        nextCond := s.nextCond + 1
        waiters := s.waiters ++ [⟨k, s.nextCond, s.now, .pre, none⟩] } := by
  unfold getEnter
  rw [hd, hc]

theorem exec_registerStep_eq {s s' : DMState K V} {k : K}
    (hx : exec s (.registerStep k) = some s') :
    lookupKey s.data k = none ∧
      ((∃ c, lookupKey s.conds k = some c ∧
          s' = { s with waiters := s.waiters ++ [⟨k, c, s.now, .pre, none⟩] }) ∨
        (lookupKey s.conds k = none ∧
          s' = { s with
            conds := insertKey s.conds k s.nextCond
            nextCond := s.nextCond + 1
            waiters := s.waiters ++ [⟨k, s.nextCond, s.now, .pre, none⟩] })) := by
  simp only [exec] at hx
  rcases hd : lookupKey s.data k with _ | v
  · rcases hc : lookupKey s.conds k with _ | c
    · rw [getEnter_fresh hd hc] at hx
      exact ⟨rfl, Or.inr ⟨rfl, (Option.some.inj hx).symm⟩⟩
    · rw [getEnter_join hd hc] at hx
      exact ⟨rfl, Or.inl ⟨c, rfl, (Option.some.inj hx).symm⟩⟩
  · rw [getEnter_hit hd] at hx
    exact absurd hx (by simp)

/-! ## C6: `Close` wakes every live descriptor, resets, and the structure
remains usable -/

/-- C6.  `Close()` signals every live Wait Descriptor — every waiter parked
on a cond that is in the registry is woken — and leaves both the Store and
the Wait Registry empty; the structure remains fully usable: for every key
`k` and value `v`, `Close()` then `Set(k, v)` then `Get(k)` returns
`(v, true)`. -/
theorem close_wakes_all_and_reuse (s : DMState K V) (k : K) (v : V) :
    (doClose s).data = [] ∧ (doClose s).conds = [] ∧
    (∀ i w, s.waiters.get? i = some w → w.helper = .parked →
      w.condId ∈ s.conds.map Prod.snd →
      (doClose s).waiters.get? i = some { w with helper := .woke }) ∧
    getEnter (doSet (doClose s) k v) k = Sum.inl (some v) := by
  refine ⟨rfl, rfl, ?_, ?_⟩
  · intro i w hw hp hc
    have hw' : s.waiters[i]? = some w := get?_eq_some_getElem? _ _ _ hw
    simp [doClose, List.get?_map, hw, hw', hp, hc]
  · have h : lookupKey (doSet (doClose s) k v).data k = some v := by
      rw [doSet_data]
      exact lookupKey_insertKey_self _ k v
    exact getEnter_hit h

/-- A concrete state with two live descriptors, a parked waiter on each. -/
def exCloseState : DMState Nat Nat :=
  { data := [(9, 7)], conds := [(1, 0), (2, 1)], nextCond := 2, timeout := 5,
    waiters := [⟨1, 0, 0, .parked, none⟩, ⟨2, 1, 0, .parked, none⟩], now := 3 }

/-- Witness for C6 at a concrete state. -/
theorem close_wakes_all_and_reuse_w :
    (doClose exCloseState).conds = [] ∧
    (doClose exCloseState).waiters.get? 0 = some ⟨1, 0, 0, .woke, none⟩ ∧
    (doClose exCloseState).waiters.get? 1 = some ⟨2, 1, 0, .woke, none⟩ ∧
    getEnter (doSet (doClose exCloseState) 4 42) 4 = Sum.inl (some 42) := by
  have h := close_wakes_all_and_reuse exCloseState 4 42
  exact ⟨h.2.1,
    h.2.2.1 0 ⟨1, 0, 0, .parked, none⟩ rfl rfl (by decide),
    h.2.2.1 1 ⟨2, 1, 0, .parked, none⟩ rfl rfl (by decide),
    h.2.2.2⟩

/-! ## C8: at most one live Wait Descriptor per key -/

/-- C8.  Invariant I1: the Wait Registry holds at most one descriptor per
key — the key list of `conds` stays duplicate-free under every step of the
machine — and a slow-path `Get` on a key whose descriptor already exists
joins that very descriptor (same `condId`, registry untouched) instead of
creating an independent one. -/
theorem one_descriptor_per_key :
    (∀ (s s' : DMState K V) (l : Label K V), exec s l = some s' →
      (s.conds.map Prod.fst).Nodup → (s'.conds.map Prod.fst).Nodup) ∧
    (∀ (s : DMState K V) (k : K) (c : Nat), lookupKey s.data k = none →
      lookupKey s.conds k = some c →
      exec s (.registerStep k) =
        some { s with waiters := s.waiters ++ [⟨k, c, s.now, .pre, none⟩] }) := by
  constructor
  · intro s s' l hx hnd
    cases l with
    | tick =>
      have h := Option.some.inj hx
      subst h
      exact hnd
    | setStep k v =>
      have h := Option.some.inj hx
      subst h
      rcases hc : lookupKey s.conds k with _ | c
      · simpa [doSet, hc] using hnd
      · have hsub : List.Sublist ((eraseKey s.conds k).map Prod.fst)
            (s.conds.map Prod.fst) := (eraseKey_sublist s.conds k).map Prod.fst
        simpa [doSet, hc] using hsub.nodup hnd
    | deleteStep k =>
      have h := Option.some.inj hx
      subst h
      exact hnd
    | closeStep =>
      have h := Option.some.inj hx
      subst h
      simp [doClose]
    | registerStep k =>
      obtain ⟨hd, hrest⟩ := exec_registerStep_eq hx
      rcases hrest with ⟨c, hc, hs'⟩ | ⟨hc, hs'⟩
      · subst hs'
        exact hnd
      · subst hs'
        have hk : k ∉ s.conds.map Prod.fst := by
          intro hmem
          obtain ⟨p, hp, hpk⟩ := List.mem_map.mp hmem
          exact (lookupKey_eq_none_iff s.conds k).mp hc p hp hpk
        simp [insertKey_of_lookup_none s.conds k s.nextCond hc,
          List.nodup_append, hnd, hk]
    | parkStep i =>
      obtain ⟨w, _, _, hs'⟩ := exec_parkStep_eq hx
      subst hs'
      exact hnd
    | retSigStep i =>
      obtain ⟨w, _, _, _, hs'⟩ := exec_retSigStep_eq hx
      subst hs'
      exact hnd
    | retTOStep i =>
      obtain ⟨w, _, _, _, hs'⟩ := exec_retTOStep_eq hx
      subst hs'
      exact hnd
  · intro s k c hd hc
    simp only [exec]
    rw [getEnter_join hd hc]

/-- A concrete state with a live descriptor for key 2. -/
def exJoinState : DMState Nat Nat :=
  { data := [], conds := [(2, 0)], nextCond := 1, timeout := 5,
    waiters := [⟨2, 0, 0, .parked, none⟩], now := 4 }

/-- Witness for C8: a `Set` keeps the registry keys duplicate-free, and a
second `Get` on key 2 joins descriptor 0 rather than creating a new one. -/
theorem one_descriptor_per_key_w :
    ((doSet exJoinState 2 10).conds.map Prod.fst).Nodup ∧
    exec exJoinState (.registerStep 2) =
      some { exJoinState with
        waiters := exJoinState.waiters ++ [⟨2, 0, exJoinState.now, .pre, none⟩] } := by
  constructor
  · exact one_descriptor_per_key.1 exJoinState (doSet exJoinState 2 10)
      (.setStep 2 10) rfl (by decide)
  · exact one_descriptor_per_key.2 exJoinState 2 0 rfl rfl

/-! ## C3: the lost-wakeup interleaving (a bug in the code)

`Get` releases `dm.mu` at line 52 and only then spawns the goroutine that
will call `cond.Wait()` at line 61.  A `Set` that runs entirely inside that
window finds the cond registered, `Broadcast`s while no goroutine is waiting
on it yet, and deletes it from `dm.conds`.  The helper then parks on the
orphaned cond forever, `done` is never closed, and the `Get` can only return
by timeout — `(zero, false)` — even though `Set(k, v)` completed its
critical-section mutation long before the deadline.  This contradicts the
spec's no-lost-wakeup guarantee (and the expectation of the repository's own
`TestDelayMap_GetWithTimeout`). -/

/-- C3, failing execution.  With `timeout = 5`: `Get(1)` registers cond 0 at
time 0; at time 1 `Set(1, 42)` runs in the pre-`Wait` window (wakes nobody,
retires cond 0); the helper then parks; at time 5 the `Get` times out and
returns `(zero, false)` although `data[1] = 42` since time 1.  The second
conjunct shows the signal branch was not even enabled just before the
timeout: the `Get` could not observe the `Set`. -/
theorem lost_wakeup_cex :
    (execTrace (newDM Nat Nat 5)
        [.registerStep 1, .tick, .setStep 1 42, .parkStep 0,
         .tick, .tick, .tick, .tick, .retTOStep 0]).map
      (fun sf => (lookupKey sf.data 1, sf.waiters.map Waiter.result, sf.now))
      = some (some 42, [some none], 5) ∧
    (execTrace (newDM Nat Nat 5)
        [.registerStep 1, .tick, .setStep 1 42, .parkStep 0,
         .tick, .tick, .tick, .tick]).map
      (fun sm => exec sm (.retSigStep 0)) = some none := by
  exact ⟨rfl, rfl⟩

/-! ## C4: wake-by-timeout does not deregister -/

/-- C4, counterexample.  A sole waiter registers cond 0 for key 1 at time 0,
parks, and times out at time 3 (`result = some none`, i.e. `(zero, false)`).
Afterwards the Wait Registry still maps key 1 to descriptor 0 — the
descriptor of the sole remaining waiter is NOT retired on timeout, contrary
to the claim. -/
theorem timeout_keeps_descriptor_cex :
    (execTrace (newDM Nat Nat 3)
        [.registerStep 1, .parkStep 0, .tick, .tick, .tick, .retTOStep 0]).map
      (fun sf => (lookupKey sf.conds 1, sf.waiters.map Waiter.result,
        sf.conds.length))
      = some (some 0, [some none], 1) := by
  exact rfl

/-- C4, amended.  A `Get` that wakes by timeout returns `(zero, false)` but
does NOT deregister: the timeout branch (lines 71–76) leaves the Wait
Registry and the Store exactly as they were (the helper goroutine even
remains on the descriptor), so the registry can grow under sustained misses;
a descriptor is only retired by a `Set` on its key or by `Close`. -/
theorem timeout_leaves_registry (s s' : DMState K V) (i : Nat)
    (hx : exec s (.retTOStep i) = some s') :
    s'.conds = s.conds ∧ s'.data = s.data ∧
    (∃ w, s.waiters.get? i = some w ∧
      s'.waiters.get? i = some { w with result := some none }) ∧
    ((s.conds.map Prod.fst).Nodup →
      ∀ k v, lookupKey (doSet s' k v).conds k = none) ∧
    (doClose s').conds = [] := by
  obtain ⟨w, hw, hres, ht, hs'⟩ := exec_retTOStep_eq hx
  subst hs'
  have hi : i < s.waiters.length := (List.get?_eq_some.mp hw).1
  refine ⟨rfl, rfl, ⟨w, hw, ?_⟩, ?_, rfl⟩
  · simpa using List.get?_set_eq_of_lt { w with result := some none } hi
      (l := s.waiters)
  · intro hnd k v
    rcases hc : lookupKey s.conds k with _ | c
    · simpa [doSet, hc] using hc
    · simpa [doSet, hc] using lookupKey_eraseKey_self s.conds k hnd

/-- The state of the C4 counterexample just before its timeout fires. -/
def exC4State : DMState Nat Nat :=
  { data := [], conds := [(1, 0)], nextCond := 1, timeout := 3,
    waiters := [⟨1, 0, 0, .parked, none⟩], now := 3 }

/-- The state of the C4 counterexample just after its timeout fired. -/
def exC4After : DMState Nat Nat :=
  { exC4State with waiters := [⟨1, 0, 0, .parked, some none⟩] }

/-- Witness for the amended C4 at a concrete state. -/
theorem timeout_leaves_registry_w :
    exC4After.conds = exC4State.conds ∧
    lookupKey (doSet exC4After 1 99).conds 1 = none ∧
    (doClose exC4After).conds = [] := by
  have h := timeout_leaves_registry exC4State exC4After 0 rfl
  exact ⟨h.1, h.2.2.2.1 (by decide) 1 99, h.2.2.2.2⟩

/-! ## C2: a single `Set` wakes every parked waiter on the key -/

theorem exec_retSigStep_some {s : DMState K V} {i : Nat} {w : Waiter K V}
    (hw : s.waiters.get? i = some w) (hph : w.helper = .woke)
    (hres : w.result = none) :
    exec s (.retSigStep i) = some
      { s with
        waiters := s.waiters.set i
          { w with result := some (lookupKey s.data w.key) } } := by
  have hw' : s.waiters[i]? = some w := get?_eq_some_getElem? _ _ _ hw
  simp [exec, hw', hres, hph]

theorem exec_retTOStep_some {s : DMState K V} {i : Nat} {w : Waiter K V}
    (hw : s.waiters.get? i = some w) (hres : w.result = none)
    (ht : w.start + s.timeout ≤ s.now) :
    exec s (.retTOStep i) = some
      { s with
        waiters := s.waiters.set i { w with result := some none } } := by
  have hw' : s.waiters[i]? = some w := get?_eq_some_getElem? _ _ _ hw
  simp [exec, hw', hres, ht]

theorem doSet_now (s : DMState K V) (k : K) (v : V) :
    (doSet s k v).now = s.now := by
  unfold doSet
  split <;> rfl

theorem doSet_timeout (s : DMState K V) (k : K) (v : V) :
    (doSet s k v).timeout = s.timeout := by
  unfold doSet
  split <;> rfl

theorem doSet_waiters_broadcast {s : DMState K V} {k : K} {c : Nat} (v : V)
    (hc : lookupKey s.conds k = some c) :
    (doSet s k v).waiters = s.waiters.map fun w =>
      if w.condId = c ∧ w.helper = .parked then { w with helper := .woke }
      else w := by
  simp [doSet, hc]

/-- Running the `done` branches of a set of distinct woken waiters on key
`k`, one after the other: all succeed, every one of them records the value
read from the Store, and every other waiter is untouched. -/
theorem execTrace_retSigs (is : List Nat) (t : DMState K V) (k : K) (v : V)
    (hnd : is.Nodup) (hdata : lookupKey t.data k = some v)
    (hws : ∀ i ∈ is, ∃ w : Waiter K V, t.waiters.get? i = some w ∧
      w.key = k ∧ w.helper = .woke ∧ w.result = none) :
    ∃ tf, execTrace t (is.map .retSigStep) = some tf ∧
      (∀ j, j ∉ is → tf.waiters.get? j = t.waiters.get? j) ∧
      (∀ i ∈ is, ∃ w', tf.waiters.get? i = some w' ∧
        w'.result = some (some v)) := by
  induction is generalizing t with
  | nil => exact ⟨t, rfl, fun j _ => rfl, by simp⟩
  | cons i is' ih =>
    obtain ⟨w, hw, hkey, hwoke, hres⟩ := hws i (by simp)
    have hi : i < t.waiters.length := (List.get?_eq_some.mp hw).1
    have hstep := exec_retSigStep_some hw hwoke hres
    set w1 : Waiter K V := { w with result := some (lookupKey t.data w.key) }
      with hw1
    set t' : DMState K V := { t with waiters := t.waiters.set i w1 } with ht'
    have hfr : ∀ j, j ≠ i → t'.waiters.get? j = t.waiters.get? j := by
      intro j hj
      exact List.get?_set_ne w1 t.waiters (Ne.symm hj)
    have hget : t'.waiters.get? i = some w1 := by
      simpa [ht'] using List.get?_set_eq_of_lt w1 hi (l := t.waiters)
    have hnd' : is'.Nodup := (List.nodup_cons.mp hnd).2
    have hni : i ∉ is' := (List.nodup_cons.mp hnd).1
    have hdata' : lookupKey t'.data k = some v := hdata
    have hws' : ∀ j ∈ is', ∃ w : Waiter K V, t'.waiters.get? j = some w ∧
        w.key = k ∧ w.helper = .woke ∧ w.result = none := by
      intro j hj
      obtain ⟨wj, hwj, h1, h2, h3⟩ := hws j (by simp [hj])
      refine ⟨wj, ?_, h1, h2, h3⟩
      rw [hfr j (fun h => hni (h ▸ hj))]
      exact hwj
    obtain ⟨tf, htr, hfrf, hall⟩ := ih t' hnd' hdata' hws'
    refine ⟨tf, ?_, ?_, ?_⟩
    · simpa [execTrace, hstep, ← ht'] using htr
    · intro j hj
      have hj1 : j ∉ is' := fun h => hj (by simp [h])
      have hj2 : j ≠ i := fun h => hj (by simp [h])
      rw [hfrf j hj1, hfr j hj2]
    · intro j hj
      rcases List.mem_cons.mp hj with hj | hj
      · subst hj
        refine ⟨w1, ?_, ?_⟩
        · rw [hfrf j hni, hget]
        · rw [hw1, hkey, hdata]
      · exact hall j hj

/-- C2.  Broadcast to multiple waiters: take any number of `Get(k)` calls
all parked on the same registered descriptor `c` of the absent key `k`.  A
single `Set(k, v)` wakes all of them at once (broadcast), after which every
one of their `done` branches succeeds and returns `(v, true)`; and no such
waiter can be forced into the timeout branch instead, as long as its
deadline has not passed (last conjunct: the timeout branch is disabled). -/
theorem set_broadcast_wakes_all (s : DMState K V) (k : K) (v : V) (c : Nat)
    (is : List Nat) (hnd : is.Nodup) (hc : lookupKey s.conds k = some c)
    (hws : ∀ i ∈ is, ∃ w : Waiter K V, s.waiters.get? i = some w ∧
      w.key = k ∧ w.condId = c ∧ w.helper = .parked ∧ w.result = none) :
    (∃ sf, execTrace s (.setStep k v :: is.map .retSigStep) = some sf ∧
      ∀ i ∈ is, ∃ w', sf.waiters.get? i = some w' ∧
        w'.result = some (some v)) ∧
    (∀ i ∈ is, ∀ w : Waiter K V, s.waiters.get? i = some w →
      s.now < w.start + s.timeout →
      exec (doSet s k v) (.retTOStep i) = none) := by
  have hdata : lookupKey (doSet s k v).data k = some v := by
    rw [doSet_data]
    exact lookupKey_insertKey_self _ k v
  have hget : ∀ i ∈ is, ∀ w : Waiter K V, s.waiters.get? i = some w →
      w.condId = c → w.helper = .parked →
      (doSet s k v).waiters.get? i = some { w with helper := .woke } := by
    intro i hi w hw hcid hpark
    rw [doSet_waiters_broadcast v hc, List.get?_map, hw]
    simp [hcid, hpark]
  have hws' : ∀ i ∈ is, ∃ w : Waiter K V,
      (doSet s k v).waiters.get? i = some w ∧
      w.key = k ∧ w.helper = .woke ∧ w.result = none := by
    intro i hi
    obtain ⟨w, hw, hkey, hcid, hpark, hres⟩ := hws i hi
    exact ⟨{ w with helper := .woke }, hget i hi w hw hcid hpark, hkey, rfl, hres⟩
  obtain ⟨tf, htr, _, hall⟩ :=
    execTrace_retSigs is (doSet s k v) k v hnd hdata hws'
  constructor
  · exact ⟨tf, htr, hall⟩
  · intro i hi w hw hlt
    obtain ⟨w₀, hw₀, hkey, hcid, hpark, hres⟩ := hws i hi
    have hww : w = w₀ := Option.some.inj (hw.symm.trans hw₀)
    subst hww
    have hg := hget i hi w hw hcid hpark
    have hg' : (doSet s k v).waiters[i]? = some { w with helper := .woke } :=
      get?_eq_some_getElem? _ _ _ hg
    have hnot : ¬({ w with helper := HelperPhase.woke } : Waiter K V).start
        + (doSet s k v).timeout ≤ (doSet s k v).now := by
      rw [doSet_timeout, doSet_now]
      exact Nat.not_le.mpr hlt
    simp [exec, hg', hres, hnot]

/-- A concrete state: two `Get(1)` calls parked on the shared descriptor 0
of the absent key 1. -/
def exBcastState : DMState Nat Nat :=
  { data := [], conds := [(1, 0)], nextCond := 1, timeout := 5,
    waiters := [⟨1, 0, 0, .parked, none⟩, ⟨1, 0, 1, .parked, none⟩], now := 2 }

/-- Witness for C2: one `Set(1, 42)` wakes both parked waiters, both return
`(42, true)`, and neither could take the timeout branch. -/
theorem set_broadcast_wakes_all_w :
    (∃ sf, execTrace exBcastState
        (.setStep 1 42 :: List.map Label.retSigStep [0, 1]) = some sf ∧
      ∀ i ∈ [0, 1], ∃ w', sf.waiters.get? i = some w' ∧
        w'.result = some (some 42)) ∧
    (∀ i ∈ [0, 1], ∀ w : Waiter Nat Nat,
      exBcastState.waiters.get? i = some w →
      exBcastState.now < w.start + exBcastState.timeout →
      exec (doSet exBcastState 1 42) (.retTOStep i) = none) :=
  set_broadcast_wakes_all exBcastState 1 42 0 [0, 1] (by decide) rfl
    (by
      intro i hi
      fin_cases hi
      · exact ⟨⟨1, 0, 0, .parked, none⟩, rfl, rfl, rfl, rfl, rfl⟩
      · exact ⟨⟨1, 0, 1, .parked, none⟩, rfl, rfl, rfl, rfl, rfl⟩)

/-! ## C5: `Get` on a never-set key times out, and not early -/

theorem mem_insertKey {l : List (K × V)} {k : K} {v : V} {p : K × V}
    (hp : p ∈ insertKey l k v) : p ∈ l ∨ p = (k, v) := by
  induction l with
  | nil => exact Or.inr (by simpa [insertKey] using hp)
  | cons q t ih =>
    obtain ⟨k', v'⟩ := q
    by_cases h : k' = k
    · rw [insertKey, if_pos h] at hp
      rcases List.mem_cons.mp hp with h1 | h1
      · exact Or.inr h1
      · exact Or.inl (List.mem_cons_of_mem _ h1)
    · rw [insertKey, if_neg h] at hp
      rcases List.mem_cons.mp hp with h1 | h1
      · exact Or.inl (h1 ▸ List.mem_cons_self _ _)
      · rcases ih h1 with h2 | h2
        · exact Or.inl (List.mem_cons_of_mem _ h2)
        · exact Or.inr h2

theorem lookupKey_some_mem {l : List (K × V)} {k : K} {c : V}
    (h : lookupKey l k = some c) : (k, c) ∈ l := by
  induction l with
  | nil => simp [lookupKey] at h
  | cons q t ih =>
    obtain ⟨k', v'⟩ := q
    by_cases hk : k' = k
    · rw [lookupKey, if_pos hk] at h
      have : v' = c := Option.some.inj h
      subst this
      subst hk
      exact List.mem_cons_self _ _
    · rw [lookupKey, if_neg hk] at h
      exact List.mem_cons_of_mem _ (ih h)

/-- `true` for the steps that neither `Set` the key `k` nor `Close`. -/
def avoids (k : K) : Label K V → Bool
  | .setStep k2 _ => if k2 = k then false else true
  | .closeStep => false
  | _ => true

/-- The standing invariant for C5: waiter `i` is a `Get(k)` call (descriptor
`cid`, started at `st`) on a key `k` that is not in the Store; it has never
been signalled; its result, if already set, is `(zero, false)` and was set
no earlier than its deadline; and no other key's registered descriptor can
alias cond `cid`. -/
def neverSetInv (k : K) (i : Nat) (cid st : Nat) (s : DMState K V) : Prop :=
  (∃ w : Waiter K V, s.waiters.get? i = some w ∧ w.key = k ∧ w.condId = cid ∧
    w.start = st ∧ w.helper ≠ .woke ∧
    (w.result = none ∨ (w.result = some none ∧ st + s.timeout ≤ s.now))) ∧
  (∀ p ∈ s.data, p.1 ≠ k) ∧
  (∀ q ∈ s.conds, q.2 = cid → q.1 = k) ∧
  cid < s.nextCond ∧
  (∀ q ∈ s.conds, q.2 < s.nextCond)

theorem neverSetInv_step {k : K} {i : Nat} {cid st : Nat}
    {s s' : DMState K V} {l : Label K V}
    (hx : exec s l = some s') (hav : avoids k l = true)
    (hinv : neverSetInv k i cid st s) : neverSetInv k i cid st s' := by
  obtain ⟨⟨w, hw, hkey, hcid, hst, hph, hres⟩, hdata, hconds, hcb, hub⟩ := hinv
  have hi : i < s.waiters.length := (List.get?_eq_some.mp hw).1
  cases l with
  | tick =>
    have hs1 := Option.some.inj hx
    subst hs1
    refine ⟨⟨w, hw, hkey, hcid, hst, hph, ?_⟩, hdata, hconds, hcb, hub⟩
    rcases hres with h | ⟨h1, h2⟩
    · exact Or.inl h
    · exact Or.inr ⟨h1, Nat.le_succ_of_le h2⟩
  | setStep k2 v =>
    have hne : k2 ≠ k := by
      intro heq
      simp [avoids, heq] at hav
    have hs1 := Option.some.inj hx
    subst hs1
    have hdata2 : ∀ p ∈ insertKey s.data k2 v, p.1 ≠ k := by
      intro p hp
      rcases mem_insertKey hp with h | h
      · exact hdata p h
      · subst h
        exact hne
    rcases hc2 : lookupKey s.conds k2 with _ | c2
    · simp only [doSet, hc2]
      exact ⟨⟨w, hw, hkey, hcid, hst, hph, hres⟩, hdata2, hconds, hcb, hub⟩
    · simp only [doSet, hc2]
      have hfw : (if w.condId = c2 ∧ w.helper = .parked then
          { w with helper := HelperPhase.woke } else w) = w := by
        refine if_neg ?_
        rintro ⟨h1, _⟩
        exact hne (hconds (k2, c2) (lookupKey_some_mem hc2)
          (h1.symm.trans hcid))
      refine ⟨⟨w, ?_, hkey, hcid, hst, hph, hres⟩, hdata2, ?_, hcb, ?_⟩
      · rw [List.get?_map, hw]
        simp [hfw]
      · intro q hq
        exact hconds q ((eraseKey_sublist s.conds k2).subset hq)
      · intro q hq
        exact hub q ((eraseKey_sublist s.conds k2).subset hq)
  | deleteStep k2 =>
    have hs1 := Option.some.inj hx
    subst hs1
    refine ⟨⟨w, hw, hkey, hcid, hst, hph, hres⟩, ?_, hconds, hcb, hub⟩
    intro p hp
    exact hdata p ((eraseKey_sublist s.data k2).subset hp)
  | closeStep => simp [avoids] at hav
  | registerStep k2 =>
    obtain ⟨hd2, hrest⟩ := exec_registerStep_eq hx
    have hwapp : (s.waiters ++
        [(⟨k2, s.nextCond, s.now, .pre, none⟩ : Waiter K V)]).get? i
        = some w := by
      rw [List.get?_append hi]
      exact hw
    rcases hrest with ⟨c, hc, hs1⟩ | ⟨hc, hs1⟩
    · subst hs1
      refine ⟨⟨w, ?_, hkey, hcid, hst, hph, hres⟩, hdata, hconds, hcb, hub⟩
      rw [List.get?_append hi]
      exact hw
    · subst hs1
      refine ⟨⟨w, hwapp, hkey, hcid, hst, hph, hres⟩, hdata, ?_, ?_, ?_⟩
      · intro q hq
        rcases mem_insertKey hq with h | h
        · exact hconds q h
        · subst h
          intro h2
          exact absurd hcb (h2 ▸ Nat.lt_irrefl cid)
      · exact Nat.lt_succ_of_lt hcb
      · intro q hq
        rcases mem_insertKey hq with h | h
        · exact Nat.lt_succ_of_lt (hub q h)
        · subst h
          exact Nat.lt_succ_self _
  | parkStep j =>
    obtain ⟨wj, hwj, hpre, hs1⟩ := exec_parkStep_eq hx
    subst hs1
    by_cases hji : j = i
    · subst hji
      have hwwj : wj = w := Option.some.inj (hwj.symm.trans hw)
      subst hwwj
      refine ⟨⟨{ wj with helper := .parked }, ?_, hkey, hcid, hst,
        by simp, hres⟩, hdata, hconds, hcb, hub⟩
      simpa using
        List.get?_set_eq_of_lt { wj with helper := HelperPhase.parked } hi
          (l := s.waiters)
    · refine ⟨⟨w, ?_, hkey, hcid, hst, hph, hres⟩, hdata, hconds, hcb, hub⟩
      rw [List.get?_set_ne _ _ hji]
      exact hw
  | retSigStep j =>
    obtain ⟨wj, hwj, hresj, hwkj, hs1⟩ := exec_retSigStep_eq hx
    subst hs1
    by_cases hji : j = i
    · subst hji
      have hwwj : wj = w := Option.some.inj (hwj.symm.trans hw)
      exact absurd (hwwj ▸ hwkj) hph
    · refine ⟨⟨w, ?_, hkey, hcid, hst, hph, hres⟩, hdata, hconds, hcb, hub⟩
      rw [List.get?_set_ne _ _ hji]
      exact hw
  | retTOStep j =>
    obtain ⟨wj, hwj, hresj, htj, hs1⟩ := exec_retTOStep_eq hx
    subst hs1
    by_cases hji : j = i
    · subst hji
      have hwwj : wj = w := Option.some.inj (hwj.symm.trans hw)
      subst hwwj
      refine ⟨⟨{ wj with result := some none }, ?_, hkey, hcid, hst, hph,
        Or.inr ⟨rfl, hst ▸ htj⟩⟩, hdata, hconds, hcb, hub⟩
      simpa using
        List.get?_set_eq_of_lt { wj with result := some (none : Option V) } hi
          (l := s.waiters)
    · refine ⟨⟨w, ?_, hkey, hcid, hst, hph, hres⟩, hdata, hconds, hcb, hub⟩
      rw [List.get?_set_ne _ _ hji]
      exact hw

theorem neverSetInv_trace {k : K} {i : Nat} {cid st : Nat}
    {s s' : DMState K V} {ls : List (Label K V)}
    (hinv : neverSetInv k i cid st s)
    (hav : ∀ l ∈ ls, avoids k l = true)
    (hx : execTrace s ls = some s') : neverSetInv k i cid st s' := by
  induction ls generalizing s with
  | nil =>
    have h := Option.some.inj hx
    subst h
    exact hinv
  | cons l ls' ih =>
    rcases he : exec s l with _ | s1
    · rw [execTrace, he] at hx
      exact absurd hx (by simp)
    · rw [execTrace, he] at hx
      exact ih (neverSetInv_step he (hav l (by simp)) hinv)
        (fun l2 h2 => hav l2 (by simp [h2])) hx

/-- C5.  Timeout on a never-set key: start from any state satisfying
`neverSetInv` — in particular the state in which `Get(k)` has just
registered on the absent key `k` at time `st` — and run any sequence of
steps in which no `Set(k, ·)` and no `Close` ever occurs.  Then the `Get`
is never signalled (`helper ≠ woke`, so its fast `done` branch never
becomes enabled), and either it has not returned yet, or it has returned
`(zero-value, false)` and only at a moment `≥ st + timeout` — never
immediately, never with a value; moreover once its deadline has passed and
it has not returned, its timeout branch is enabled. -/
theorem get_unset_times_out (k : K) (i : Nat) (cid st : Nat)
    (s s' : DMState K V) (ls : List (Label K V))
    (hinv : neverSetInv k i cid st s)
    (hav : ∀ l ∈ ls, avoids k l = true)
    (hx : execTrace s ls = some s') :
    ∃ w' : Waiter K V, s'.waiters.get? i = some w' ∧ w'.key = k ∧
      w'.start = st ∧ w'.helper ≠ .woke ∧
      (w'.result = none ∨ (w'.result = some none ∧ st + s'.timeout ≤ s'.now)) ∧
      (w'.result = none → st + s'.timeout ≤ s'.now →
        exec s' (.retTOStep i) = some
          { s' with
            waiters := s'.waiters.set i { w' with result := some none } }) := by
  obtain ⟨⟨w', hw', hkey, hcid, hst, hph, hres⟩, _, _, _, _⟩ :=
    neverSetInv_trace hinv hav hx
  refine ⟨w', hw', hkey, hst, hph, hres, ?_⟩
  intro h1 h2
  exact exec_retTOStep_some hw' h1 (hst ▸ h2)

/-- Concrete start state for the C5 witness: `Get(1)` has just registered
(cond 0) on absent key 1 of a `DelayMap` with timeout 2, at time 0. -/
def exC5Start : DMState Nat Nat :=
  { data := [], conds := [(1, 0)], nextCond := 1, timeout := 2,
    waiters := [⟨1, 0, 0, .pre, none⟩], now := 0 }

/-- Final state of the C5 witness trace: the waiter timed out with
`(zero, false)` at time 2, the full timeout after its start. -/
def exC5Final : DMState Nat Nat :=
  { data := [(2, 9)], conds := [(1, 0)], nextCond := 1, timeout := 2,
    waiters := [⟨1, 0, 0, .parked, some none⟩], now := 2 }

/-- Witness for C5: a trace with activity on other keys (`Set(2, 9)`) but no
`Set(1, ·)` and no `Close`. -/
theorem get_unset_times_out_w :
    ∃ w' : Waiter Nat Nat, exC5Final.waiters.get? 0 = some w' ∧
      w'.key = 1 ∧ w'.start = 0 ∧ w'.helper ≠ .woke ∧
      (w'.result = none ∨
        (w'.result = some none ∧ 0 + exC5Final.timeout ≤ exC5Final.now)) ∧
      (w'.result = none → 0 + exC5Final.timeout ≤ exC5Final.now →
        exec exC5Final (.retTOStep 0) = some
          { exC5Final with
            waiters :=
              exC5Final.waiters.set 0 { w' with result := some none } }) :=
  get_unset_times_out 1 0 0 0 exC5Start exC5Final
    [.parkStep 0, .setStep 2 9, .tick, .tick, .retTOStep 0]
    ⟨⟨⟨1, 0, 0, .pre, none⟩, rfl, rfl, rfl, rfl, by decide, Or.inl rfl⟩,
      by decide, by decide, by decide, by decide⟩
    (by decide) rfl

end DelayMap
